import Mathlib

/-!
Shallow embedding of the clue-agent repository's core pipeline:

* `src/src/agent_ont/tools_agent_v2.py` — the iterative plan → search →
  summarize → extract → merge → persist → observe pipeline and its NCBI
  retry wrapper (`_http_get`, `search_pubmed`, `plan_queries`, `search`,
  `merge_concepts`, `observe`, `bump_iter`);
* `src/ontology_services/db.py` — the SQLite results table with its
  `UNIQUE(search_id, title, url)` constraint and `bulk_insert_results`;
* `src/ontology_services/http_client.py` — `http_get` retry/backoff.

Pure fragments are translated into executable Lean functions; external
collaborators (LLM output, HTTP responses) become explicit parameters.
-/

namespace ClueAgent

/-! ## Python primitives

`pyStrip` embeds Python's `str.strip()` (drop leading and trailing
whitespace).  `strLe` embeds Python's string `<=`: code-point
lexicographic comparison.  `pySortedSet` embeds Python's
`sorted(list(set(l)))` for string lists: duplicates removed, ascending
lexicographic order.  `sortedUnion a b` embeds
`sorted(list(set(a) | set(b)))`. -/

def stripChars (l : List Char) : List Char :=
  ((l.dropWhile Char.isWhitespace).reverse.dropWhile Char.isWhitespace).reverse

def pyStrip (s : String) : String := ⟨stripChars s.data⟩

/-- Code-point lexicographic `<=` on char lists, Python's string order. -/
def lexLeB : List Char → List Char → Bool
  | [], _ => true
  | _ :: _, [] => false
  | a :: as, b :: bs =>
      if a.toNat < b.toNat then true
      else if b.toNat < a.toNat then false
      else lexLeB as bs

def strLe (s t : String) : Prop := lexLeB s.data t.data = true

instance strLe.decidableRel : DecidableRel strLe := fun s t => by
  unfold strLe; infer_instance

theorem lexLeB_total (as : List Char) : ∀ bs, lexLeB as bs = true ∨ lexLeB bs as = true := by
  induction as with
  | nil => intro bs; left; rfl
  | cons a as ih =>
      intro bs
      cases bs with
      | nil => right; rfl
      | cons b bs =>
          rcases Nat.lt_trichotomy a.toNat b.toNat with h | h | h
          · left; simp [lexLeB, h]
          · rcases ih bs with h' | h'
            · left; simp [lexLeB, h, h']
            · right; simp [lexLeB, h.symm, h']
          · right; simp [lexLeB, h]

theorem lexLeB_trans (as : List Char) :
    ∀ bs cs, lexLeB as bs = true → lexLeB bs cs = true → lexLeB as cs = true := by
  induction as with
  | nil => intro bs cs _ _; rfl
  | cons a as ih =>
      intro bs cs hab hbc
      cases bs with
      | nil => simp [lexLeB] at hab
      | cons b bs =>
          cases cs with
          | nil => simp [lexLeB] at hbc
          | cons c cs =>
              simp only [lexLeB] at hab hbc ⊢
              by_cases h1 : a.toNat < b.toNat <;> by_cases h2 : b.toNat < c.toNat <;>
                by_cases h3 : a.toNat < c.toNat <;>
                simp [h1, h2, h3] at hab hbc ⊢ <;> try omega
              · exact ⟨le_trans hab.1 hbc.1, ih bs cs hab.2 hbc.2⟩

theorem lexLeB_antisymm (as : List Char) :
    ∀ bs, lexLeB as bs = true → lexLeB bs as = true → as = bs := by
  induction as with
  | nil =>
      intro bs _ hba
      cases bs with
      | nil => rfl
      | cons b bs => simp [lexLeB] at hba
  | cons a as ih =>
      intro bs hab hba
      cases bs with
      | nil => simp [lexLeB] at hab
      | cons b bs =>
          simp only [lexLeB] at hab hba
          by_cases h1 : a.toNat < b.toNat <;> by_cases h2 : b.toNat < a.toNat <;>
            simp [h1, h2] at hab hba
          · omega
          · have hchar : a = b := by
              have hn : a.toNat = b.toNat := by omega
              rw [← Char.ofNat_toNat a, ← Char.ofNat_toNat b, hn]
            exact hchar ▸ congrArg _ (ih bs hab hba)

instance strLe.isTotal : IsTotal String strLe :=
  ⟨fun s t => lexLeB_total s.data t.data⟩

instance strLe.isTrans : IsTrans String strLe :=
  ⟨fun s t u => lexLeB_trans s.data t.data u.data⟩

instance strLe.isAntisymm : IsAntisymm String strLe :=
  ⟨fun s t h h' => by
    cases s; cases t
    exact congrArg String.mk (lexLeB_antisymm _ _ h h')⟩

def pySortedSet (l : List String) : List String :=
  List.insertionSort strLe l.dedup

def sortedUnion (a b : List String) : List String :=
  pySortedSet (a ++ b)

theorem mem_pySortedSet {x : String} {l : List String} :
    x ∈ pySortedSet l ↔ x ∈ l := by
  unfold pySortedSet
  rw [(List.perm_insertionSort strLe l.dedup).mem_iff]
  exact List.mem_dedup

theorem sorted_pySortedSet (l : List String) :
    (pySortedSet l).Sorted strLe :=
  List.sorted_insertionSort strLe l.dedup

theorem nodup_pySortedSet (l : List String) : (pySortedSet l).Nodup :=
  (List.perm_insertionSort strLe l.dedup).nodup_iff.mpr l.nodup_dedup

theorem pySortedSet_eq_of_mem_iff {l₁ l₂ : List String}
    (h : ∀ x, x ∈ l₁ ↔ x ∈ l₂) : pySortedSet l₁ = pySortedSet l₂ := by
  refine List.eq_of_perm_of_sorted ?_ (sorted_pySortedSet l₁) (sorted_pySortedSet l₂)
  refine (List.perm_ext_iff_of_nodup (nodup_pySortedSet l₁) (nodup_pySortedSet l₂)).mpr ?_
  intro a
  rw [mem_pySortedSet, mem_pySortedSet]
  exact h a

/-! ## Data model of `merge_concepts`

A `Candidate` is one extraction-candidate dict as `merge_concepts` reads
it: fields already defaulted the way Python's `c.get(k) or d` does, so a
missing/None `name_snake` or `text` is the empty string, missing `mags`
or `applies_to` the empty list.  `_origin_title`/`_origin_url` are the
tags attached by `extract_terms`. -/

structure Evidence where
  title : String
  url : String
  deriving DecidableEq, Repr

structure Candidate where
  name_snake : String
  text : String
  mags : List String
  applies_to : List String
  origin_title : String
  origin_url : String
  deriving DecidableEq, Repr

/-- One value of the `onto["concepts"]` dict: magnification list, display
text, applicable-class list, evidence list. -/
structure ConceptEntry where
  mags : List String
  text : String
  applies_to : List String
  evidence : List Evidence
  deriving DecidableEq, Repr

/-- A candidate that passed the `if not name or not text or not mags:
continue` guard, with the stripped name/text and the `applies_to`
default applied. -/
structure ValidCand where
  name : String
  text : String
  mags : List String
  applies : List String
  ev : Evidence
  deriving DecidableEq, Repr

/-- The validation prefix of the `merge_concepts` loop body: strip
`name_snake` and `text`, default `mags` to `[]`, default `applies_to` to
`[class_name]` when empty (Python `or`), build the evidence dict from
the origin tags, and drop the candidate when name, text or mags is
empty. -/
def validate (className : String) (c : Candidate) : Option ValidCand :=
  let name := pyStrip c.name_snake
  let text := pyStrip c.text
  let mags := c.mags
  let applies := if c.applies_to = [] then [className] else c.applies_to
  if name = "" ∨ text = "" ∨ mags = [] then none
  else some { name := name, text := text, mags := mags, applies := applies,
              ev := { title := c.origin_title, url := c.origin_url } }

/-- The `setdefault` default entry: `{"mags": [], "text": text,
"applies_to": list(set(applies)), "evidence": []}`.  Python's
`list(set(...))` has unspecified order; it is modelled as `dedup`
because the very next statement overwrites `applies_to` with a sorted
union, so only its membership can ever be observed. -/
def initEntry (v : ValidCand) : ConceptEntry :=
  { mags := [], text := v.text, applies_to := v.applies.dedup, evidence := [] }

/-- The update body of the `merge_concepts` loop on an existing (or just
created) slot: union mags, keep the strictly shorter non-empty text,
union `applies_to`, append the evidence pair when title or url is
non-empty. -/
def updateSlot (slot : ConceptEntry) (v : ValidCand) : ConceptEntry :=
  { mags := sortedUnion slot.mags v.mags
    text := if v.text ≠ "" ∧ v.text.length < slot.text.length then v.text else slot.text
    applies_to := sortedUnion slot.applies_to v.applies
    evidence := if v.ev.url ≠ "" ∨ v.ev.title ≠ "" then slot.evidence ++ [v.ev]
                else slot.evidence }

/-! ## The ontology map

`onto["concepts"]` is a Python dict keyed by the stripped `name_snake`.
It is embedded as an association list in insertion order; `find?` is
dict lookup, `setEntry` is dict assignment (replace in place, or append
a new binding at the end). -/

abbrev Onto := List (String × ConceptEntry)

def find? (o : Onto) (n : String) : Option ConceptEntry :=
  (o.find? (fun p => p.1 = n)).map (·.2)

/-- Dict assignment `onto["concepts"][n] = e`: replace the binding in
place when the key is present, append at the end when absent (Python
dicts preserve insertion order and hold one binding per key). -/
def setEntry : Onto → String → ConceptEntry → Onto
  | [], n, e => [(n, e)]
  | p :: o, n, e => if p.1 = n then (n, e) :: o else p :: setEntry o n e

/-- One iteration of the `merge_concepts` loop on the (ontology, delta)
pair: skip invalid candidates, otherwise `setdefault` + update +
`delta.append(name)`. -/
def mergeStep (className : String) (acc : Onto × List String) (c : Candidate) :
    Onto × List String :=
  match validate className c with
  | none => acc
  | some v =>
      let slot := (find? acc.1 v.name).getD (initEntry v)
      (setEntry acc.1 v.name (updateSlot slot v), acc.2 ++ [v.name])

/-- `merge_concepts` restricted to its observable effect: fold the
candidate list into the ontology and return the new ontology together
with `sorted(list(set(delta)))`. -/
def mergeConcepts (className : String) (o : Onto) (cs : List Candidate) :
    Onto × List String :=
  let acc := cs.foldl (mergeStep className) (o, [])
  (acc.1, pySortedSet acc.2)

/-- The ontology component of `mergeConcepts` alone. -/
def mergeOnto (className : String) (o : Onto) (cs : List Candidate) : Onto :=
  (cs.foldl (mergeStep className) (o, [])).1

/-- The ontology effect of one loop iteration. -/
def stepOnto (className : String) (o : Onto) (c : Candidate) : Onto :=
  (mergeStep className (o, []) c).1

/-- The names appended to `delta` by the loop: the stripped names of the
candidates that pass validation, in candidate order. -/
def validNames (className : String) (cs : List Candidate) : List String :=
  cs.filterMap (fun c => (validate className c).map (·.name))

/-! ## Per-name projection of the merge fold

`merge_concepts` touches the entry of name `n` exactly at the validated
candidates whose stripped name is `n`; `foldEntryOpt` replays those
touches on a single optional entry. -/

def foldEntry (e : ConceptEntry) (vs : List ValidCand) : ConceptEntry :=
  vs.foldl updateSlot e

def foldEntryOpt : Option ConceptEntry → List ValidCand → Option ConceptEntry
  | some e, vs => some (foldEntry e vs)
  | none, [] => none
  | none, v :: vs => some (foldEntry (updateSlot (initEntry v) v) vs)

def relevantOf (className n : String) (cs : List Candidate) : List ValidCand :=
  (cs.filterMap (validate className)).filter (fun v => v.name = n)

/-! ### Basic lemmas about the ontology dict -/

theorem find?_setEntry_self (o : Onto) (n : String) (e : ConceptEntry) :
    find? (setEntry o n e) n = some e := by
  induction o with
  | nil => simp [setEntry, find?]
  | cons p o ih =>
      by_cases h : p.1 = n
      · simp [setEntry, find?, h]
      · simp only [setEntry, if_neg h]
        unfold find? at *
        rw [List.find?_cons_of_neg _ (by simpa using h)]
        exact ih

theorem find?_setEntry_ne (o : Onto) {n m : String} (h : m ≠ n) (e : ConceptEntry) :
    find? (setEntry o n e) m = find? o m := by
  have hnm : ¬ n = m := fun hs => h hs.symm
  induction o with
  | nil =>
      unfold find? setEntry
      rw [List.find?_cons_of_neg _ (by simpa using hnm)]
  | cons p o ih =>
      by_cases hp : p.1 = n
      · simp only [setEntry, if_pos hp]
        unfold find?
        rw [List.find?_cons_of_neg _ (by simpa using hnm),
            List.find?_cons_of_neg _ (by simp [hp, hnm])]
      · simp only [setEntry, if_neg hp]
        by_cases hm : p.1 = m
        · unfold find?
          rw [List.find?_cons_of_pos _ (by simpa using hm),
              List.find?_cons_of_pos _ (by simpa using hm)]
        · unfold find? at *
          rw [List.find?_cons_of_neg _ (by simpa using hm),
              List.find?_cons_of_neg _ (by simpa using hm)]
          exact ih

/-! ### Splitting the merge fold into its two components -/

theorem stepOnto_valid (className : String) (o : Onto) (c : Candidate)
    {v : ValidCand} (hv : validate className c = some v) :
    stepOnto className o c =
      setEntry o v.name (updateSlot ((find? o v.name).getD (initEntry v)) v) := by
  simp [stepOnto, mergeStep, hv]

theorem stepOnto_invalid (className : String) (o : Onto) (c : Candidate)
    (hv : validate className c = none) : stepOnto className o c = o := by
  simp [stepOnto, mergeStep, hv]

theorem mergeStep_eq (className : String) (o : Onto) (d : List String) (c : Candidate) :
    mergeStep className (o, d) c =
      (stepOnto className o c, d ++ ((validate className c).map (·.name)).toList) := by
  cases hv : validate className c <;> simp [mergeStep, stepOnto, hv]

theorem foldl_mergeStep_fst_irrel (className : String) (cs : List Candidate) :
    ∀ (o : Onto) (d d' : List String),
      (cs.foldl (mergeStep className) (o, d)).1 = (cs.foldl (mergeStep className) (o, d')).1 := by
  induction cs with
  | nil => intro o d d'; rfl
  | cons c cs ih =>
      intro o d d'
      rw [List.foldl_cons, List.foldl_cons, mergeStep_eq, mergeStep_eq]
      exact ih _ _ _

theorem mergeOnto_cons (className : String) (o : Onto) (c : Candidate) (cs : List Candidate) :
    mergeOnto className o (c :: cs) = mergeOnto className (stepOnto className o c) cs := by
  unfold mergeOnto
  rw [List.foldl_cons, mergeStep_eq]
  exact foldl_mergeStep_fst_irrel className cs _ _ _

theorem foldl_mergeStep (className : String) (cs : List Candidate) :
    ∀ (o : Onto) (d : List String),
      cs.foldl (mergeStep className) (o, d) =
        (mergeOnto className o cs, d ++ validNames className cs) := by
  induction cs with
  | nil => intro o d; simp [mergeOnto, validNames]
  | cons c cs ih =>
      intro o d
      rw [List.foldl_cons, mergeStep_eq, ih, mergeOnto_cons]
      have hnames : validNames className (c :: cs) =
          ((validate className c).map (·.name)).toList ++ validNames className cs := by
        unfold validNames
        cases hv : validate className c <;> simp [hv]
      rw [hnames, List.append_assoc]

theorem mergeConcepts_eq (className : String) (o : Onto) (cs : List Candidate) :
    mergeConcepts className o cs =
      (mergeOnto className o cs, pySortedSet (validNames className cs)) := by
  simp [mergeConcepts, foldl_mergeStep]

theorem mergeOnto_append (className : String) (o : Onto) (cs₁ cs₂ : List Candidate) :
    mergeOnto className o (cs₁ ++ cs₂) = mergeOnto className (mergeOnto className o cs₁) cs₂ := by
  induction cs₁ generalizing o with
  | nil => rfl
  | cons c cs₁ ih => rw [List.cons_append, mergeOnto_cons, mergeOnto_cons, ih]

/-! ### The projection lemma -/

theorem find?_stepOnto_valid (className : String) (o : Onto) (c : Candidate)
    {v : ValidCand} (hv : validate className c = some v) :
    find? (stepOnto className o c) v.name =
      some (updateSlot ((find? o v.name).getD (initEntry v)) v) := by
  rw [stepOnto_valid className o c hv]
  exact find?_setEntry_self _ _ _

theorem find?_stepOnto_ne (className : String) (o : Onto) (c : Candidate) {n : String}
    (h : ∀ v, validate className c = some v → v.name ≠ n) :
    find? (stepOnto className o c) n = find? o n := by
  cases hv : validate className c with
  | none => rw [stepOnto_invalid className o c hv]
  | some v =>
      rw [stepOnto_valid className o c hv]
      exact find?_setEntry_ne o (fun he => h v hv he.symm) _

theorem find?_mergeOnto (className : String) (cs : List Candidate) :
    ∀ (o : Onto) (n : String),
      find? (mergeOnto className o cs) n = foldEntryOpt (find? o n) (relevantOf className n cs) := by
  induction cs with
  | nil =>
      intro o n
      cases h : find? o n <;> simp [mergeOnto, relevantOf, foldEntryOpt, h, foldEntry]
  | cons c cs ih =>
      intro o n
      rw [mergeOnto_cons, ih]
      cases hv : validate className c with
      | none => simp [relevantOf, hv, find?_stepOnto_ne className o c (by simp [hv])]
      | some v =>
          by_cases hn : v.name = n
          · subst hn
            rw [find?_stepOnto_valid className o c hv]
            have hrel : relevantOf className v.name (c :: cs) =
                v :: relevantOf className v.name cs := by
              simp [relevantOf, hv]
            rw [hrel]
            cases he : find? o v.name with
            | none => simp [foldEntryOpt, he]
            | some e => simp [foldEntryOpt, he, foldEntry]
          · have hrel : relevantOf className n (c :: cs) = relevantOf className n cs := by
              simp [relevantOf, hv, hn]
            rw [hrel, find?_stepOnto_ne className o c (by intro w hw; rw [hv] at hw; cases hw; exact hn)]

/-! ### Observable projections of an optional entry -/

def magsOf (e : Option ConceptEntry) : List String := (e.map (·.mags)).getD []

def appliesOf (e : Option ConceptEntry) : List String := (e.map (·.applies_to)).getD []

def textOf (e : Option ConceptEntry) : Option String := e.map (·.text)

def evidenceOf (e : Option ConceptEntry) : List Evidence := (e.map (·.evidence)).getD []

def textLenOf : Option ConceptEntry → WithTop Nat
  | none => ⊤
  | some e => (e.text.length : WithTop Nat)

/-- The evidence entry the loop appends for a validated candidate:
present exactly when its url or title is non-empty. -/
def evRef (v : ValidCand) : Option Evidence :=
  if v.ev.url ≠ "" ∨ v.ev.title ≠ "" then some v.ev else none

theorem validate_text_ne {className : String} {c : Candidate} {v : ValidCand}
    (hv : validate className c = some v) : v.text ≠ "" := by
  unfold validate at hv
  by_cases h : pyStrip c.name_snake = "" ∨ pyStrip c.text = "" ∨ c.mags = []
  · simp [h] at hv
  · simp only [if_neg h] at hv
    cases hv
    push_neg at h
    exact h.2.1

theorem mem_relevantOf_text_ne {className n : String} {cs : List Candidate}
    {v : ValidCand} (hv : v ∈ relevantOf className n cs) : v.text ≠ "" := by
  unfold relevantOf at hv
  obtain ⟨hmem, _⟩ := List.mem_filter.mp hv
  obtain ⟨c, _, hc⟩ := List.mem_filterMap.mp hmem
  exact validate_text_ne hc

/-! ### Field-wise characterization of `updateSlot` and `foldEntry` -/

theorem updateSlot_evidence (e : ConceptEntry) (v : ValidCand) :
    (updateSlot e v).evidence = e.evidence ++ (evRef v).toList := by
  unfold updateSlot evRef
  by_cases h : v.ev.url ≠ "" ∨ v.ev.title ≠ "" <;> simp [h]

theorem updateSlot_mem_mags {m : String} (e : ConceptEntry) (v : ValidCand) :
    m ∈ (updateSlot e v).mags ↔ m ∈ e.mags ∨ m ∈ v.mags := by
  unfold updateSlot sortedUnion
  simp [mem_pySortedSet]

theorem updateSlot_mags_sorted (e : ConceptEntry) (v : ValidCand) :
    (updateSlot e v).mags.Sorted strLe ∧ (updateSlot e v).mags.Nodup :=
  ⟨sorted_pySortedSet _, nodup_pySortedSet _⟩

theorem updateSlot_mem_applies {m : String} (e : ConceptEntry) (v : ValidCand) :
    m ∈ (updateSlot e v).applies_to ↔ m ∈ e.applies_to ∨ m ∈ v.applies := by
  unfold updateSlot sortedUnion
  simp [mem_pySortedSet]

theorem updateSlot_applies_sorted (e : ConceptEntry) (v : ValidCand) :
    (updateSlot e v).applies_to.Sorted strLe ∧ (updateSlot e v).applies_to.Nodup :=
  ⟨sorted_pySortedSet _, nodup_pySortedSet _⟩

theorem updateSlot_text_len (e : ConceptEntry) {v : ValidCand} (hv : v.text ≠ "") :
    (updateSlot e v).text.length = min e.text.length v.text.length := by
  unfold updateSlot
  by_cases h : v.text.length < e.text.length
  · simp only [hv, ne_eq, not_false_eq_true, true_and, if_pos h]
    omega
  · simp only [hv, ne_eq, not_false_eq_true, true_and, if_neg h]
    omega

theorem updateSlot_text_keep (e : ConceptEntry) {v : ValidCand}
    (h : ¬ v.text.length < e.text.length) : (updateSlot e v).text = e.text := by
  unfold updateSlot
  simp [h]

theorem foldEntry_evidence (vs : List ValidCand) :
    ∀ e : ConceptEntry, (foldEntry e vs).evidence = e.evidence ++ vs.filterMap evRef := by
  induction vs with
  | nil => intro e; simp [foldEntry]
  | cons v vs ih =>
      intro e
      show (foldEntry (updateSlot e v) vs).evidence = _
      rw [ih, updateSlot_evidence]
      cases h : evRef v <;> simp [h]

theorem foldEntry_mem_mags (vs : List ValidCand) :
    ∀ (e : ConceptEntry) (m : String),
      m ∈ (foldEntry e vs).mags ↔ m ∈ e.mags ∨ ∃ v ∈ vs, m ∈ v.mags := by
  induction vs with
  | nil => intro e m; simp [foldEntry]
  | cons v vs ih =>
      intro e m
      show m ∈ (foldEntry (updateSlot e v) vs).mags ↔ _
      rw [ih, updateSlot_mem_mags]
      simp only [List.mem_cons]
      constructor
      · rintro ((h | h) | ⟨w, hw, hm⟩)
        · exact Or.inl h
        · exact Or.inr ⟨v, Or.inl rfl, h⟩
        · exact Or.inr ⟨w, Or.inr hw, hm⟩
      · rintro (h | ⟨w, hw | hw, hm⟩)
        · exact Or.inl (Or.inl h)
        · exact Or.inl (Or.inr (hw ▸ hm))
        · exact Or.inr ⟨w, hw, hm⟩

theorem foldEntry_mags_sorted (vs : List ValidCand) :
    ∀ e : ConceptEntry, e.mags.Sorted strLe → e.mags.Nodup →
      (foldEntry e vs).mags.Sorted strLe ∧ (foldEntry e vs).mags.Nodup := by
  induction vs with
  | nil => intro e hs hn; exact ⟨hs, hn⟩
  | cons v vs ih =>
      intro e _ _
      exact ih (updateSlot e v) (updateSlot_mags_sorted e v).1 (updateSlot_mags_sorted e v).2

theorem foldEntry_mem_applies (vs : List ValidCand) :
    ∀ (e : ConceptEntry) (m : String),
      m ∈ (foldEntry e vs).applies_to ↔ m ∈ e.applies_to ∨ ∃ v ∈ vs, m ∈ v.applies := by
  induction vs with
  | nil => intro e m; simp [foldEntry]
  | cons v vs ih =>
      intro e m
      show m ∈ (foldEntry (updateSlot e v) vs).applies_to ↔ _
      rw [ih, updateSlot_mem_applies]
      simp only [List.mem_cons]
      constructor
      · rintro ((h | h) | ⟨w, hw, hm⟩)
        · exact Or.inl h
        · exact Or.inr ⟨v, Or.inl rfl, h⟩
        · exact Or.inr ⟨w, Or.inr hw, hm⟩
      · rintro (h | ⟨w, hw | hw, hm⟩)
        · exact Or.inl (Or.inl h)
        · exact Or.inl (Or.inr (hw ▸ hm))
        · exact Or.inr ⟨w, hw, hm⟩

theorem foldEntry_applies_sorted (vs : List ValidCand) :
    ∀ e : ConceptEntry, e.applies_to.Sorted strLe → e.applies_to.Nodup →
      (foldEntry e vs).applies_to.Sorted strLe ∧ (foldEntry e vs).applies_to.Nodup := by
  induction vs with
  | nil => intro e hs hn; exact ⟨hs, hn⟩
  | cons v vs ih =>
      intro e _ _
      exact ih (updateSlot e v) (updateSlot_applies_sorted e v).1 (updateSlot_applies_sorted e v).2

theorem foldEntry_text_len (vs : List ValidCand) :
    ∀ e : ConceptEntry, (∀ v ∈ vs, v.text ≠ "") →
      (foldEntry e vs).text.length =
        vs.foldl (fun L v => min L v.text.length) e.text.length := by
  induction vs with
  | nil => intro e _; rfl
  | cons v vs ih =>
      intro e hne
      show (foldEntry (updateSlot e v) vs).text.length = _
      rw [ih (updateSlot e v) (fun w hw => hne w (List.mem_cons_of_mem v hw)),
          List.foldl_cons, updateSlot_text_len e (hne v (List.mem_cons_self v vs))]

theorem foldEntry_text_keep (vs : List ValidCand) :
    ∀ e : ConceptEntry, (∀ v ∈ vs, e.text.length ≤ v.text.length) →
      (foldEntry e vs).text = e.text := by
  induction vs with
  | nil => intro e _; rfl
  | cons v vs ih =>
      intro e hle
      show (foldEntry (updateSlot e v) vs).text = _
      have hkeep : (updateSlot e v).text = e.text :=
        updateSlot_text_keep e (not_lt.mpr (hle v (List.mem_cons_self v vs)))
      rw [ih (updateSlot e v) (fun w hw => hkeep ▸ hle w (List.mem_cons_of_mem v hw)), hkeep]

/-! ### Lifting the characterizations to `foldEntryOpt` -/

theorem foldEntryOpt_evidence (e : Option ConceptEntry) (vs : List ValidCand) :
    evidenceOf (foldEntryOpt e vs) = evidenceOf e ++ vs.filterMap evRef := by
  cases e with
  | some e => simp [foldEntryOpt, evidenceOf, foldEntry_evidence]
  | none =>
      cases vs with
      | nil => simp [foldEntryOpt, evidenceOf]
      | cons v vs =>
          show evidenceOf (some (foldEntry (updateSlot (initEntry v) v) vs)) = _
          simp only [evidenceOf, Option.map_some', Option.getD_some, Option.map_none',
            Option.getD_none, List.nil_append]
          rw [foldEntry_evidence, updateSlot_evidence]
          cases h : evRef v <;> simp [h, initEntry]

theorem foldEntryOpt_mem_mags (e : Option ConceptEntry) (vs : List ValidCand) (m : String) :
    m ∈ magsOf (foldEntryOpt e vs) ↔ m ∈ magsOf e ∨ ∃ v ∈ vs, m ∈ v.mags := by
  cases e with
  | some e =>
      show m ∈ (foldEntry e vs).mags ↔ _
      rw [foldEntry_mem_mags]
      rfl
  | none =>
      cases vs with
      | nil => simp [foldEntryOpt, magsOf]
      | cons v vs =>
          show m ∈ (foldEntry (updateSlot (initEntry v) v) vs).mags ↔ _
          rw [foldEntry_mem_mags, updateSlot_mem_mags]
          constructor
          · rintro ((h | h) | ⟨w, hw, hm⟩)
            · exact absurd h (List.not_mem_nil m)
            · exact Or.inr ⟨v, List.mem_cons_self v vs, h⟩
            · exact Or.inr ⟨w, List.mem_cons_of_mem v hw, hm⟩
          · rintro (h | ⟨w, hw, hm⟩)
            · exact absurd h (List.not_mem_nil m)
            · rcases List.mem_cons.mp hw with h' | h'
              · subst h'
                exact Or.inl (Or.inr hm)
              · exact Or.inr ⟨w, h', hm⟩

theorem foldEntryOpt_mags_sorted (e : Option ConceptEntry) {vs : List ValidCand}
    (h : vs ≠ []) :
    (magsOf (foldEntryOpt e vs)).Sorted strLe ∧ (magsOf (foldEntryOpt e vs)).Nodup := by
  cases e with
  | some e =>
      cases vs with
      | nil => exact absurd rfl h
      | cons v vs =>
          show ((foldEntry (updateSlot e v) vs).mags.Sorted strLe ∧ _)
          exact foldEntry_mags_sorted vs _ (updateSlot_mags_sorted e v).1
            (updateSlot_mags_sorted e v).2
  | none =>
      cases vs with
      | nil => exact absurd rfl h
      | cons v vs =>
          show ((foldEntry (updateSlot (initEntry v) v) vs).mags.Sorted strLe ∧ _)
          exact foldEntry_mags_sorted vs _ (updateSlot_mags_sorted _ v).1
            (updateSlot_mags_sorted _ v).2

theorem foldEntryOpt_mem_applies (e : Option ConceptEntry) (vs : List ValidCand) (m : String) :
    m ∈ appliesOf (foldEntryOpt e vs) ↔ m ∈ appliesOf e ∨ ∃ v ∈ vs, m ∈ v.applies := by
  cases e with
  | some e =>
      show m ∈ (foldEntry e vs).applies_to ↔ _
      rw [foldEntry_mem_applies]
      rfl
  | none =>
      cases vs with
      | nil => simp [foldEntryOpt, appliesOf]
      | cons v vs =>
          show m ∈ (foldEntry (updateSlot (initEntry v) v) vs).applies_to ↔ _
          rw [foldEntry_mem_applies, updateSlot_mem_applies]
          constructor
          · rintro ((h | h) | ⟨w, hw, hm⟩)
            · exact Or.inr ⟨v, List.mem_cons_self v vs, List.mem_dedup.mp h⟩
            · exact Or.inr ⟨v, List.mem_cons_self v vs, h⟩
            · exact Or.inr ⟨w, List.mem_cons_of_mem v hw, hm⟩
          · rintro (h | ⟨w, hw, hm⟩)
            · exact absurd h (List.not_mem_nil m)
            · rcases List.mem_cons.mp hw with h' | h'
              · subst h'
                exact Or.inl (Or.inr hm)
              · exact Or.inr ⟨w, h', hm⟩

theorem foldEntryOpt_applies_sorted (e : Option ConceptEntry) {vs : List ValidCand}
    (h : vs ≠ []) :
    (appliesOf (foldEntryOpt e vs)).Sorted strLe ∧ (appliesOf (foldEntryOpt e vs)).Nodup := by
  cases e with
  | some e =>
      cases vs with
      | nil => exact absurd rfl h
      | cons v vs =>
          show ((foldEntry (updateSlot e v) vs).applies_to.Sorted strLe ∧ _)
          exact foldEntry_applies_sorted vs _ (updateSlot_applies_sorted e v).1
            (updateSlot_applies_sorted e v).2
  | none =>
      cases vs with
      | nil => exact absurd rfl h
      | cons v vs =>
          show ((foldEntry (updateSlot (initEntry v) v) vs).applies_to.Sorted strLe ∧ _)
          exact foldEntry_applies_sorted vs _ (updateSlot_applies_sorted _ v).1
            (updateSlot_applies_sorted _ v).2

theorem natCast_min_wt (x y : Nat) :
    ((min x y : Nat) : WithTop Nat) = min (x : WithTop Nat) (y : WithTop Nat) := by
  exact_mod_cast rfl

theorem coe_foldl_min (vs : List ValidCand) :
    ∀ a : Nat, ((vs.foldl (fun L v => min L v.text.length) a : Nat) : WithTop Nat) =
      vs.foldl (fun L v => min L (v.text.length : WithTop Nat)) (a : WithTop Nat) := by
  induction vs with
  | nil => intro a; rfl
  | cons v vs ih =>
      intro a
      rw [List.foldl_cons, List.foldl_cons, ih, natCast_min_wt]

theorem foldEntryOpt_text_len (e : Option ConceptEntry) (vs : List ValidCand)
    (h : ∀ v ∈ vs, v.text ≠ "") :
    textLenOf (foldEntryOpt e vs) =
      vs.foldl (fun L v => min L (v.text.length : WithTop Nat)) (textLenOf e) := by
  cases e with
  | some e =>
      show ((foldEntry e vs).text.length : WithTop Nat) = _
      rw [foldEntry_text_len vs e h, coe_foldl_min]
      rfl
  | none =>
      cases vs with
      | nil => rfl
      | cons v vs =>
          show ((foldEntry (updateSlot (initEntry v) v) vs).text.length : WithTop Nat) = _
          have hstart : (updateSlot (initEntry v) v).text = v.text := by
            apply updateSlot_text_keep
            show ¬ v.text.length < (initEntry v).text.length
            simp [initEntry]
          rw [foldEntry_text_len vs _ (fun w hw => h w (List.mem_cons_of_mem v hw)),
              coe_foldl_min, List.foldl_cons, hstart]
          show _ = List.foldl _ (min (⊤ : WithTop Nat) (v.text.length : WithTop Nat)) vs
          rw [min_eq_right (le_top : (v.text.length : WithTop Nat) ≤ ⊤)]

theorem foldl_min_le_init (vs : List ValidCand) :
    ∀ a : WithTop Nat, vs.foldl (fun L v => min L (v.text.length : WithTop Nat)) a ≤ a := by
  induction vs with
  | nil => intro a; exact le_refl a
  | cons v vs ih =>
      intro a
      exact le_trans (ih _) (min_le_left _ _)

theorem foldl_min_le_mem {v : ValidCand} (vs : List ValidCand) (hv : v ∈ vs) :
    ∀ a : WithTop Nat,
      vs.foldl (fun L w => min L (w.text.length : WithTop Nat)) a ≤
        (v.text.length : WithTop Nat) := by
  induction vs with
  | nil => cases hv
  | cons w vs ih =>
      intro a
      rcases List.mem_cons.mp hv with h | h
      · subst h
        exact le_trans (foldl_min_le_init vs _) (min_le_right _ _)
      · exact ih h _

theorem foldl_min_perm {vs₁ vs₂ : List ValidCand} (p : vs₁.Perm vs₂) (a : WithTop Nat) :
    vs₁.foldl (fun L v => min L (v.text.length : WithTop Nat)) a =
      vs₂.foldl (fun L v => min L (v.text.length : WithTop Nat)) a := by
  haveI : RightCommutative (fun (L : WithTop Nat) (v : ValidCand) =>
      min L (v.text.length : WithTop Nat)) := ⟨fun b a₁ a₂ => min_right_comm _ _ _⟩
  exact p.foldl_eq a

theorem foldEntryOpt_isSome (e : Option ConceptEntry) (vs : List ValidCand) :
    (foldEntryOpt e vs).isSome = (e.isSome || !vs.isEmpty) := by
  cases e with
  | some e => simp [foldEntryOpt]
  | none => cases vs <;> simp [foldEntryOpt]

theorem foldEntryOpt_nil (e : Option ConceptEntry) : foldEntryOpt e [] = e := by
  cases e <;> rfl

theorem pySortedSet_eq_nil {l : List String} : pySortedSet l = [] ↔ l = [] := by
  constructor
  · intro h
    rw [List.eq_nil_iff_forall_not_mem]
    intro x hx
    have := mem_pySortedSet.mpr hx
    rw [h] at this
    exact List.not_mem_nil x this
  · intro h
    subst h
    rfl

theorem sorted_nodup_ext {l₁ l₂ : List String}
    (hs₁ : l₁.Sorted strLe) (hs₂ : l₂.Sorted strLe)
    (hn₁ : l₁.Nodup) (hn₂ : l₂.Nodup) (h : ∀ x, x ∈ l₁ ↔ x ∈ l₂) : l₁ = l₂ :=
  List.eq_of_perm_of_sorted ((List.perm_ext_iff_of_nodup hn₁ hn₂).mpr h) hs₁ hs₂

theorem mergeOnto_single (className : String) (o : Onto) (c : Candidate) :
    mergeOnto className o [c] = stepOnto className o c := by
  rw [mergeOnto_cons]
  rfl

/-! ## Claim C6 — shorter-text tie-break -/

/-- Claim C6: when a candidate whose normalized identity already exists in
the ontology map is merged, the entry's text is replaced by the
candidate's text exactly when the candidate's text is non-empty and
strictly shorter (fewer characters) than the existing text. -/
theorem claim_C6_shorter_text_tiebreak (className : String) (o : Onto) (c : Candidate)
    (v : ValidCand) (e : ConceptEntry)
    (hv : validate className c = some v) (he : find? o v.name = some e) :
    textOf (find? (mergeOnto className o [c]) v.name) =
      some (if v.text ≠ "" ∧ v.text.length < e.text.length then v.text else e.text) := by
  rw [mergeOnto_single, find?_stepOnto_valid className o c hv, he, Option.getD_some]
  rfl

def exC6_e10 : ConceptEntry :=
  { mags := ["20x"], text := "aaaaaaaaaa", applies_to := ["ca"], evidence := [] }

def exC6_o : Onto := [("x", exC6_e10)]

def exC6_c5 : Candidate :=
  { name_snake := "x", text := "bbbbb", mags := ["20x"], applies_to := ["ca"],
    origin_title := "", origin_url := "" }

def exC6_v5 : ValidCand :=
  { name := "x", text := "bbbbb", mags := ["20x"], applies := ["ca"],
    ev := { title := "", url := "" } }

def exC6_e5 : ConceptEntry :=
  { mags := ["20x"], text := "bbbbb", applies_to := ["ca"], evidence := [] }

def exC6_o5 : Onto := mergeOnto "ca" exC6_o [exC6_c5]

def exC6_c8 : Candidate :=
  { name_snake := "x", text := "cccccccc", mags := ["20x"], applies_to := ["ca"],
    origin_title := "", origin_url := "" }

def exC6_v8 : ValidCand :=
  { name := "x", text := "cccccccc", mags := ["20x"], applies := ["ca"],
    ev := { title := "", url := "" } }

/-- Claim C6 witness: a candidate of text length 5 replaces an existing
text of length 10, and a subsequent candidate of text length 8 leaves
the length-5 text unchanged. -/
theorem claim_C6_witness :
    textOf (find? (mergeOnto "ca" exC6_o [exC6_c5]) "x") = some "bbbbb" ∧
    textOf (find? (mergeOnto "ca" exC6_o5 [exC6_c8]) "x") = some "bbbbb" :=
  ⟨(claim_C6_shorter_text_tiebreak "ca" exC6_o exC6_c5 exC6_v5 exC6_e10
      (by decide) (by decide)).trans (by decide),
   (claim_C6_shorter_text_tiebreak "ca" exC6_o5 exC6_c8 exC6_v8 exC6_e5
      (by decide) (by decide)).trans (by decide)⟩

/-! ## Claim C10 — the delta set -/

/-- Claim C10: after every MERGE step the delta list is sorted (in
Python's string order) and duplicate-free, and it contains exactly the
stripped names of the candidates that passed validation, independently
of the ontology state and of whether the merge changed anything. -/
theorem claim_C10_delta_characterization (className : String) (o : Onto)
    (cs : List Candidate) :
    ((mergeConcepts className o cs).2).Sorted strLe ∧
    ((mergeConcepts className o cs).2).Nodup ∧
    (∀ n, n ∈ (mergeConcepts className o cs).2 ↔
      ∃ c ∈ cs, ∃ v, validate className c = some v ∧ v.name = n) ∧
    (mergeConcepts className o cs).2 = (mergeConcepts className [] cs).2 := by
  rw [mergeConcepts_eq, mergeConcepts_eq]
  refine ⟨sorted_pySortedSet _, nodup_pySortedSet _, ?_, rfl⟩
  intro n
  rw [mem_pySortedSet]
  unfold validNames
  simp [List.mem_filterMap, Option.map_eq_some']

/-! ## Claim C1 — MERGE is not idempotent (corrected) -/

def exC1_c : Candidate :=
  { name_snake := "na", text := "big", mags := ["40x"], applies_to := ["ca"],
    origin_title := "T", origin_url := "U" }

def exC1_o1 : Onto := mergeOnto "ca" [] [exC1_c]

/-- Claim C1 counterexample: re-running MERGE with the already-merged
candidate `exC1_c` returns the non-empty delta `["na"]` and appends a
duplicate evidence reference, so the re-merge neither leaves every
ConceptEntry unchanged nor yields an empty delta set. -/
theorem claim_C1_counterexample :
    (mergeConcepts "ca" exC1_o1 [exC1_c]).2 = ["na"] ∧
    evidenceOf (find? exC1_o1 "na") = [{ title := "T", url := "U" }] ∧
    evidenceOf (find? (mergeConcepts "ca" exC1_o1 [exC1_c]).1 "na") =
      [{ title := "T", url := "U" }, { title := "T", url := "U" }] :=
  ⟨by decide, by decide, by decide⟩

/-- Claim C1 amended: re-running MERGE with an already-merged candidate
list returns the same delta as the first run (the sorted set of
validated names, empty exactly when no candidate validates) and leaves
every entry's presence, magnification list, applicable-class list and
text unchanged, but appends a second copy of each validated candidate's
non-empty evidence reference. -/
theorem claim_C1_remerge (className : String) (o : Onto) (cs : List Candidate) :
    (mergeConcepts className (mergeConcepts className o cs).1 cs).2 =
      (mergeConcepts className o cs).2 ∧
    ((mergeConcepts className o cs).2 = [] ↔ validNames className cs = []) ∧
    ∀ n,
      (find? (mergeConcepts className (mergeConcepts className o cs).1 cs).1 n).isSome =
        (find? (mergeConcepts className o cs).1 n).isSome ∧
      magsOf (find? (mergeConcepts className (mergeConcepts className o cs).1 cs).1 n) =
        magsOf (find? (mergeConcepts className o cs).1 n) ∧
      appliesOf (find? (mergeConcepts className (mergeConcepts className o cs).1 cs).1 n) =
        appliesOf (find? (mergeConcepts className o cs).1 n) ∧
      textOf (find? (mergeConcepts className (mergeConcepts className o cs).1 cs).1 n) =
        textOf (find? (mergeConcepts className o cs).1 n) ∧
      evidenceOf (find? (mergeConcepts className (mergeConcepts className o cs).1 cs).1 n) =
        evidenceOf (find? (mergeConcepts className o cs).1 n) ++
          (relevantOf className n cs).filterMap evRef := by
  simp only [mergeConcepts_eq]
  refine ⟨trivial, pySortedSet_eq_nil, ?_⟩
  intro n
  have h1 : find? (mergeOnto className o cs) n =
      foldEntryOpt (find? o n) (relevantOf className n cs) := find?_mergeOnto className cs o n
  have h2 : find? (mergeOnto className (mergeOnto className o cs) cs) n =
      foldEntryOpt (find? (mergeOnto className o cs) n) (relevantOf className n cs) :=
    find?_mergeOnto className cs (mergeOnto className o cs) n
  cases hr : relevantOf className n cs with
  | nil =>
      rw [hr] at h2
      rw [h2, foldEntryOpt_nil]
      simp [hr]
  | cons v vs =>
      have hne : relevantOf className n cs ≠ [] := by rw [hr]; simp
      have htext : ∀ w ∈ relevantOf className n cs, w.text ≠ "" :=
        fun w hw => mem_relevantOf_text_ne hw
      -- the first merge produces an actual entry at n
      have hsome : (find? (mergeOnto className o cs) n).isSome := by
        rw [h1, foldEntryOpt_isSome, hr]
        simp
      obtain ⟨e1, he1⟩ := Option.isSome_iff_exists.mp hsome
      rw [he1] at h2
      have h2' : find? (mergeOnto className (mergeOnto className o cs) cs) n =
          some (foldEntry e1 (relevantOf className n cs)) := h2
      -- length of e1's text is a lower bound for every relevant candidate
      have hlen : ∀ w ∈ relevantOf className n cs, e1.text.length ≤ w.text.length := by
        intro w hw
        have hfold : textLenOf (find? (mergeOnto className o cs) n) =
            (relevantOf className n cs).foldl
              (fun L v => min L (v.text.length : WithTop Nat)) (textLenOf (find? o n)) := by
          rw [h1]
          exact foldEntryOpt_text_len _ _ htext
        have hle := foldl_min_le_mem (relevantOf className n cs) hw (textLenOf (find? o n))
        rw [← hfold, he1] at hle
        simp only [textLenOf] at hle
        exact_mod_cast hle
      refine ⟨?_, ?_, ?_, ?_, ?_⟩
      · rw [h2', he1]
        rfl
      · -- mags
        refine sorted_nodup_ext ?_ ?_ ?_ ?_ ?_
        · have := foldEntryOpt_mags_sorted (some e1) hne
          rw [← h2] at this
          exact (h2' ▸ this.1)
        · have := foldEntryOpt_mags_sorted (find? o n) hne
          rw [← h1] at this
          exact (he1 ▸ this.1)
        · have := foldEntryOpt_mags_sorted (some e1) hne
          rw [← h2] at this
          exact (h2' ▸ this.2)
        · have := foldEntryOpt_mags_sorted (find? o n) hne
          rw [← h1] at this
          exact (he1 ▸ this.2)
        · intro m
          rw [h2', he1]
          show m ∈ (foldEntry e1 (relevantOf className n cs)).mags ↔ m ∈ e1.mags
          rw [foldEntry_mem_mags]
          constructor
          · rintro (h | ⟨w, hw, hm⟩)
            · exact h
            · have : m ∈ magsOf (foldEntryOpt (find? o n) (relevantOf className n cs)) :=
                (foldEntryOpt_mem_mags _ _ m).mpr (Or.inr ⟨w, hw, hm⟩)
              rw [← h1, he1] at this
              exact this
          · exact Or.inl
      · -- applies_to
        refine sorted_nodup_ext ?_ ?_ ?_ ?_ ?_
        · have := foldEntryOpt_applies_sorted (some e1) hne
          rw [← h2] at this
          exact (h2' ▸ this.1)
        · have := foldEntryOpt_applies_sorted (find? o n) hne
          rw [← h1] at this
          exact (he1 ▸ this.1)
        · have := foldEntryOpt_applies_sorted (some e1) hne
          rw [← h2] at this
          exact (h2' ▸ this.2)
        · have := foldEntryOpt_applies_sorted (find? o n) hne
          rw [← h1] at this
          exact (he1 ▸ this.2)
        · intro m
          rw [h2', he1]
          show m ∈ (foldEntry e1 (relevantOf className n cs)).applies_to ↔ m ∈ e1.applies_to
          rw [foldEntry_mem_applies]
          constructor
          · rintro (h | ⟨w, hw, hm⟩)
            · exact h
            · have : m ∈ appliesOf (foldEntryOpt (find? o n) (relevantOf className n cs)) :=
                (foldEntryOpt_mem_applies _ _ m).mpr (Or.inr ⟨w, hw, hm⟩)
              rw [← h1, he1] at this
              exact this
          · exact Or.inl
      · -- text
        rw [h2', he1]
        show some (foldEntry e1 (relevantOf className n cs)).text = some e1.text
        rw [foldEntry_text_keep _ _ hlen]
      · -- evidence
        rw [h2', he1]
        show (foldEntry e1 (relevantOf className n cs)).evidence = _
        simp [foldEntry_evidence, hr, evidenceOf]

/-! ## Claim C5 — batch-order dependence of MERGE (corrected) -/

theorem relevantOf_append (className n : String) (cs₁ cs₂ : List Candidate) :
    relevantOf className n (cs₁ ++ cs₂) =
      relevantOf className n cs₁ ++ relevantOf className n cs₂ := by
  unfold relevantOf
  rw [List.filterMap_append, List.filter_append]

def exC5_cA : Candidate :=
  { name_snake := "x", text := "t", mags := ["20x"], applies_to := ["ca"],
    origin_title := "T1", origin_url := "" }

def exC5_cB : Candidate :=
  { name_snake := "y", text := "u", mags := ["40x"], applies_to := ["ca"],
    origin_title := "T1", origin_url := "" }

def exC5_cC : Candidate :=
  { name_snake := "x", text := "t", mags := ["20x"], applies_to := ["ca"],
    origin_title := "T2", origin_url := "" }

/-- Claim C5 counterexample: merging batches `[A, B]` then `[C]` and
`[C]` then `[A, B]` over the same overall candidate set produces
different final ontology maps — the evidence list of concept `x` records
`T1` before `T2` in one order and `T2` before `T1` in the other. -/
theorem claim_C5_counterexample :
    mergeOnto "ca" (mergeOnto "ca" [] ([exC5_cA] ++ [exC5_cB])) [exC5_cC] ≠
      mergeOnto "ca" (mergeOnto "ca" [] [exC5_cC]) ([exC5_cA] ++ [exC5_cB]) := by
  decide

/-- Claim C5 amended: merging batches `[A, B]` then `[C]` and `[C]` then
`[A, B]` yields final maps that agree on every concept's presence,
magnification list, applicable-class list and text length, and whose
evidence lists are permutations of each other; the maps may still differ
in evidence order (and in which of two equal-shortest texts is kept). -/
theorem claim_C5_batch_order (className : String) (o : Onto)
    (A B C : List Candidate) (n : String) :
    (find? (mergeOnto className (mergeOnto className o (A ++ B)) C) n).isSome =
      (find? (mergeOnto className (mergeOnto className o C) (A ++ B)) n).isSome ∧
    magsOf (find? (mergeOnto className (mergeOnto className o (A ++ B)) C) n) =
      magsOf (find? (mergeOnto className (mergeOnto className o C) (A ++ B)) n) ∧
    appliesOf (find? (mergeOnto className (mergeOnto className o (A ++ B)) C) n) =
      appliesOf (find? (mergeOnto className (mergeOnto className o C) (A ++ B)) n) ∧
    textLenOf (find? (mergeOnto className (mergeOnto className o (A ++ B)) C) n) =
      textLenOf (find? (mergeOnto className (mergeOnto className o C) (A ++ B)) n) ∧
    (evidenceOf (find? (mergeOnto className (mergeOnto className o (A ++ B)) C) n)).Perm
      (evidenceOf (find? (mergeOnto className (mergeOnto className o C) (A ++ B)) n)) := by
  rw [← mergeOnto_append, ← mergeOnto_append]
  have h1 := find?_mergeOnto className (A ++ B ++ C) o n
  have h2 := find?_mergeOnto className (C ++ (A ++ B)) o n
  have hperm : (relevantOf className n (A ++ B ++ C)).Perm
      (relevantOf className n (C ++ (A ++ B))) := by
    simp only [relevantOf_append]
    exact List.perm_append_comm
  rw [h1, h2]
  cases hr1 : relevantOf className n (A ++ B ++ C) with
  | nil =>
      have hr2 : relevantOf className n (C ++ (A ++ B)) = [] := by
        rw [hr1] at hperm
        exact hperm.symm.eq_nil
      rw [hr2, foldEntryOpt_nil]
      exact ⟨rfl, rfl, rfl, rfl, List.Perm.refl _⟩
  | cons v vs =>
      rw [← hr1]
      have hne1 : relevantOf className n (A ++ B ++ C) ≠ [] := by rw [hr1]; simp
      have hne2 : relevantOf className n (C ++ (A ++ B)) ≠ [] := by
        intro h
        rw [h] at hperm
        rw [hperm.eq_nil] at hr1
        cases hr1
      have htext1 : ∀ w ∈ relevantOf className n (A ++ B ++ C), w.text ≠ "" :=
        fun w hw => mem_relevantOf_text_ne hw
      have htext2 : ∀ w ∈ relevantOf className n (C ++ (A ++ B)), w.text ≠ "" :=
        fun w hw => mem_relevantOf_text_ne hw
      refine ⟨?_, ?_, ?_, ?_, ?_⟩
      · rw [foldEntryOpt_isSome, foldEntryOpt_isSome]
        have e1 : (relevantOf className n (A ++ B ++ C)).isEmpty = false := by
          cases h : relevantOf className n (A ++ B ++ C) with
          | nil => exact absurd h hne1
          | cons a as => rfl
        have e2 : (relevantOf className n (C ++ (A ++ B))).isEmpty = false := by
          cases h : relevantOf className n (C ++ (A ++ B)) with
          | nil => exact absurd h hne2
          | cons a as => rfl
        rw [e1, e2]
      · refine sorted_nodup_ext (foldEntryOpt_mags_sorted _ hne1).1
          (foldEntryOpt_mags_sorted _ hne2).1 (foldEntryOpt_mags_sorted _ hne1).2
          (foldEntryOpt_mags_sorted _ hne2).2 ?_
        intro m
        rw [foldEntryOpt_mem_mags, foldEntryOpt_mem_mags]
        constructor
        · rintro (h | ⟨w, hw, hm⟩)
          · exact Or.inl h
          · exact Or.inr ⟨w, hperm.mem_iff.mp hw, hm⟩
        · rintro (h | ⟨w, hw, hm⟩)
          · exact Or.inl h
          · exact Or.inr ⟨w, hperm.mem_iff.mpr hw, hm⟩
      · refine sorted_nodup_ext (foldEntryOpt_applies_sorted _ hne1).1
          (foldEntryOpt_applies_sorted _ hne2).1 (foldEntryOpt_applies_sorted _ hne1).2
          (foldEntryOpt_applies_sorted _ hne2).2 ?_
        intro m
        rw [foldEntryOpt_mem_applies, foldEntryOpt_mem_applies]
        constructor
        · rintro (h | ⟨w, hw, hm⟩)
          · exact Or.inl h
          · exact Or.inr ⟨w, hperm.mem_iff.mp hw, hm⟩
        · rintro (h | ⟨w, hw, hm⟩)
          · exact Or.inl h
          · exact Or.inr ⟨w, hperm.mem_iff.mpr hw, hm⟩
      · rw [foldEntryOpt_text_len _ _ htext1, foldEntryOpt_text_len _ _ htext2]
        exact foldl_min_perm hperm _
      · rw [foldEntryOpt_evidence, foldEntryOpt_evidence]
        exact List.Perm.append_left _ (hperm.filterMap evRef)

/-! ## The pipeline state (`build_graph` in tools_agent_v2.py)

The graph state is a plain dict threaded through the nodes.  LLM calls
(`plan_queries`, `mutate_queries`, summarize/extract) and the PubMed
tool are external collaborators: their outputs enter as parameters.
`planned = none` models a JSON parse failure; a `some` list holds the
parsed entries that are strings (non-strings are dropped at the model
boundary, mirroring the `isinstance(q, str)` filter). -/

structure Hit where
  title : String
  snippet : String
  url : String
  origin_query : String
  deriving DecidableEq, Repr

structure AgentState where
  class_name : String
  k : Nat
  max_iters : Nat
  min_concepts : Nat
  iteration : Nat
  tried_queries : List String
  current_queries : List String
  results : List Hit
  candidates : List Candidate
  ontology : Onto
  delta_concepts : List String
  stop : Bool
  deriving Repr

/-- The initial state built in `__main__`. -/
def initialState (className : String) (k maxIters minConcepts : Nat) : AgentState :=
  { class_name := className, k := k, max_iters := maxIters, min_concepts := minConcepts,
    iteration := 0, tried_queries := [], current_queries := [], results := [],
    candidates := [], ontology := [], delta_concepts := [], stop := false }

/-- Node `bump`: `state["iteration"] += 1`. -/
def bump_iter (s : AgentState) : AgentState := { s with iteration := s.iteration + 1 }

/-- The hard-coded fallback seed queries of `plan_queries`. -/
def fallbackQueries (className : String) : List String :=
  [className ++ " histology morphology features low power",
   className ++ " cytology nucleoli mitoses high power",
   className ++ " benign mimics differential diagnosis histology"]

/-- Node `plan_queries`: keep the parsed string queries whose `strip()`
is non-empty, substitute the fallback seeds when that list is empty
**and** `state["iteration"] == 0`, then truncate to 4. -/
def plan_queries (planned : Option (List String)) (s : AgentState) : AgentState :=
  let qs := (planned.getD []).filter (fun q => pyStrip q ≠ "")
  let qs := if qs = [] ∧ s.iteration = 0 then fallbackQueries s.class_name else qs
  { s with current_queries := qs.take 4 }

/-- The hard-coded fallback queries of `mutate_queries`. -/
def mutateFallback (className : String) : List String :=
  [className ++ " subcapsular nests capsule sinus histology",
   className ++ " nuclear atypia mitoses high power histology"]

/-- Node `mutate_queries`: like planning but with an unconditional
fallback. -/
def mutate_queries (proposed : Option (List String)) (s : AgentState) : AgentState :=
  let qs := (proposed.getD []).filter (fun q => pyStrip q ≠ "")
  let qs := if qs = [] then mutateFallback s.class_name else qs
  { s with current_queries := qs.take 4 }

/-- `h["_origin_query"] = q`. -/
def tagHit (q : String) (h : Hit) : Hit := { h with origin_query := q }

/-- The `for q in state["current_queries"]` loop of node `search`:
append `q` to the tried list before the tool call, tag every hit with
its originating query, accumulate hits in order. -/
def searchLoop (retrieve : String → List Hit) :
    List String → List String → List Hit → List String × List Hit
  | [], tried, acc => (tried, acc)
  | q :: qs, tried, acc =>
      searchLoop retrieve qs (tried ++ [q]) (acc ++ (retrieve q).map (tagHit q))

/-- Node `search`. -/
def search (retrieve : String → List Hit) (s : AgentState) : AgentState :=
  let r := searchLoop retrieve s.current_queries s.tried_queries []
  { s with tried_queries := r.1, results := r.2 }

/-- The summarize/extract stages only fill `state["candidates"]` from
collaborator output. -/
def set_candidates (cands : List Candidate) (s : AgentState) : AgentState :=
  { s with candidates := cands }

/-- Node `merge_concepts` on the state. -/
def merge_concepts_node (s : AgentState) : AgentState :=
  let r := mergeConcepts s.class_name s.ontology s.candidates
  { s with ontology := r.1, delta_concepts := r.2 }

/-- Node `observe`: `state["stop"] = (total >= min_concepts) or
(iteration >= max_iters)` with `total = len(onto["concepts"])`. -/
def observe (s : AgentState) : AgentState :=
  { s with stop := decide (s.min_concepts ≤ s.ontology.length) ||
                   decide (s.max_iters ≤ s.iteration) }

/-- The collaborator outputs consumed by one cycle of the graph. -/
structure CycleInput where
  planned : Option (List String)
  retrieve : String → List Hit
  candidates : List Candidate
  mutated : Option (List String)

/-- One pass through the wiring `bump → plan_queries → search →
summarize → extract → merge_concepts → persist → observe`, followed by
`mutate_queries` when `decide` keeps looping (persist only writes
files, leaving the state unchanged). -/
def runCycle (inp : CycleInput) (s : AgentState) : AgentState :=
  let s6 := observe (merge_concepts_node (set_candidates inp.candidates
    (search inp.retrieve (plan_queries inp.planned (bump_iter s)))))
  if s6.stop then s6 else mutate_queries inp.mutated s6

/-- The conditional loop of the compiled graph: run cycles until the
stop flag holds or the supplied inputs are exhausted. -/
def runCycles (inps : List CycleInput) (s : AgentState) : AgentState :=
  match inps with
  | [] => s
  | inp :: rest =>
      let s' := runCycle inp s
      if s'.stop then s' else runCycles rest s'

/-- The query batch the SEARCH step issues in each executed cycle. -/
def issuedQueries (inps : List CycleInput) (s : AgentState) : List (List String) :=
  match inps with
  | [] => []
  | inp :: rest =>
      let batch := (plan_queries inp.planned (bump_iter s)).current_queries
      let s' := runCycle inp s
      if s'.stop then [batch] else batch :: issuedQueries rest s'

/-! ## Claim C3 — the stop condition -/

def exC3_entry : ConceptEntry :=
  { mags := ["20x"], text := "t", applies_to := ["ca"], evidence := [] }

/-- A state with the given iteration counter and the given number of
distinct merged concepts, under `min_concepts = 4`, `max_iters = 3`. -/
def exC3_state (iter nconcepts : Nat) : AgentState :=
  { class_name := "ca", k := 5, max_iters := 3, min_concepts := 4,
    iteration := iter, tried_queries := [], current_queries := [], results := [],
    candidates := [],
    ontology := (List.range nconcepts).map (fun i => (toString i, exC3_entry)),
    delta_concepts := [], stop := false }

/-- Claim C3: OBSERVE sets the stop flag exactly when the concept count
reaches `min_concepts` or the iteration counter reaches `max_iters`;
with `min_concepts = 4`, `max_iters = 3`, a run holding 4 concepts at
iteration 2 stops, a run holding 2 concepts at iteration 3 stops, and a
run holding 2 concepts at iteration 2 does not stop. -/
theorem claim_C3_observe_stop :
    (∀ s : AgentState, (observe s).stop = true ↔
      (s.min_concepts ≤ s.ontology.length ∨ s.max_iters ≤ s.iteration)) ∧
    (observe (exC3_state 2 4)).stop = true ∧
    (observe (exC3_state 3 2)).stop = true ∧
    (observe (exC3_state 2 2)).stop = false := by
  refine ⟨?_, by decide, by decide, by decide⟩
  intro s
  simp [observe]

/-! ## Claim C4 — the dead first-iteration fallback (code bug) -/

/-- Claim C4 (code bug): the graph bumps the iteration counter to 1
before the first planning step, so the `iteration == 0` guard of the
`plan_queries` fallback can never hold during a run; when planning
yields no usable queries on the first cycle, `current_queries` stays
empty and SEARCH runs with zero queries.  (At an unbumped iteration-0
state the fallback would fire, which is exactly what the wiring makes
unreachable.) -/
theorem claim_C4_first_iteration_no_fallback :
    (bump_iter (initialState "ca" 5 3 4)).iteration = 1 ∧
    (plan_queries none (bump_iter (initialState "ca" 5 3 4))).current_queries = [] ∧
    (plan_queries (some ["  "]) (bump_iter (initialState "ca" 5 3 4))).current_queries = [] ∧
    (search (fun _ => []) (plan_queries none
        (bump_iter (initialState "ca" 5 3 4)))).tried_queries = [] ∧
    (plan_queries none (initialState "ca" 5 3 4)).current_queries =
      fallbackQueries "ca" := by
  refine ⟨rfl, by decide, by decide, by decide, by decide⟩

/-! ## Claim C9 — tried-query retention -/

theorem searchLoop_tried (retrieve : String → List Hit) (qs : List String) :
    ∀ (tried : List String) (acc : List Hit),
      (searchLoop retrieve qs tried acc).1 = tried ++ qs := by
  induction qs with
  | nil => intro tried acc; simp [searchLoop]
  | cons q qs ih =>
      intro tried acc
      rw [searchLoop, ih, List.append_assoc]
      rfl

theorem search_tried (retrieve : String → List Hit) (s : AgentState) :
    (search retrieve s).tried_queries = s.tried_queries ++ s.current_queries := by
  show (searchLoop retrieve s.current_queries s.tried_queries []).1 = _
  rw [searchLoop_tried]

theorem runCycle_tried (inp : CycleInput) (s : AgentState) :
    (runCycle inp s).tried_queries =
      s.tried_queries ++ (plan_queries inp.planned (bump_iter s)).current_queries := by
  unfold runCycle
  have hsearch : (search inp.retrieve (plan_queries inp.planned (bump_iter s))).tried_queries =
      s.tried_queries ++ (plan_queries inp.planned (bump_iter s)).current_queries := by
    rw [search_tried]
    rfl
  by_cases h : (observe (merge_concepts_node (set_candidates inp.candidates
      (search inp.retrieve (plan_queries inp.planned (bump_iter s)))))).stop = true
  · simp only [h, if_true]
    rw [← hsearch]
    rfl
  · simp only [h, if_false]
    rw [← hsearch]
    rfl

/-- Claim C9: across a whole run the tried-queries list is exactly the
initial list followed by every query batch the SEARCH step issued, in
issue order, for every retrieval collaborator (including one returning
zero results) — nothing is deduplicated or truncated. -/
theorem claim_C9_tried_query_retention (inps : List CycleInput) (s : AgentState) :
    (runCycles inps s).tried_queries = s.tried_queries ++ (issuedQueries inps s).flatten := by
  induction inps generalizing s with
  | nil => simp [runCycles, issuedQueries]
  | cons inp rest ih =>
      rw [runCycles, issuedQueries]
      by_cases h : (runCycle inp s).stop = true
      · simp only [if_pos h]
        rw [runCycle_tried]
        simp
      · rw [if_neg h, if_neg h, ih, runCycle_tried]
        simp

/-! ## `bulk_insert_results` (src/ontology_services/db.py)

The `results` table carries `UNIQUE(search_id, title, url)`;
`bulk_insert_results` builds one record per item (missing/None fields
defaulted to `""` by `item.get(k) or ""`) and runs
`INSERT OR IGNORE ... executemany`, returning `cur.rowcount`, the
number of rows actually inserted. -/

structure ResultItem where
  title : Option String
  url : Option String
  published : Option String
  license : Option String
  snippet : Option String
  deriving DecidableEq, Repr

/-- Python `item.get(k) or ""` (None and `""` both become `""`). -/
def pyGetOr (v : Option String) : String := v.getD ""

structure ResultRow where
  search_id : Nat
  title : String
  url : String
  published : String
  license : String
  snippet : String
  payload : ResultItem
  deriving DecidableEq, Repr

def toRow (searchId : Nat) (item : ResultItem) : ResultRow :=
  { search_id := searchId, title := pyGetOr item.title, url := pyGetOr item.url,
    published := pyGetOr item.published, license := pyGetOr item.license,
    snippet := pyGetOr item.snippet, payload := item }

abbrev ResultsTable := List ResultRow

/-- Match on the `UNIQUE(search_id, title, url)` key. -/
def rowMatches (sid : Nat) (title url : String) (r : ResultRow) : Bool :=
  decide (r.search_id = sid ∧ r.title = title ∧ r.url = url)

def keyMem (t : ResultsTable) (sid : Nat) (title url : String) : Bool :=
  t.any (rowMatches sid title url)

/-- One `INSERT OR IGNORE` under the unique constraint: skip when the
key triple already exists, otherwise append the row; the second
component is the row-count contribution. -/
def insertOrIgnore (t : ResultsTable) (r : ResultRow) : ResultsTable × Nat :=
  if keyMem t r.search_id r.title r.url then (t, 0) else (t ++ [r], 1)

/-- `bulk_insert_results(search_id, items)`: the table after the
`executemany`, paired with the returned `cur.rowcount`. -/
def bulk_insert_results (t : ResultsTable) (searchId : Nat) (items : List ResultItem) :
    ResultsTable × Nat :=
  items.foldl (fun acc item =>
    let r := insertOrIgnore acc.1 (toRow searchId item)
    (r.1, acc.2 + r.2)) (t, 0)

/-- Number of stored rows carrying the given unique key. -/
def keyCount (t : ResultsTable) (sid : Nat) (title url : String) : Nat :=
  (t.filter (rowMatches sid title url)).length

theorem bulk_insert_shift (searchId : Nat) (items : List ResultItem) :
    ∀ (t : ResultsTable) (c : Nat),
      items.foldl (fun acc item =>
          let r := insertOrIgnore acc.1 (toRow searchId item)
          (r.1, acc.2 + r.2)) (t, c) =
        ((bulk_insert_results t searchId items).1,
          c + (bulk_insert_results t searchId items).2) := by
  induction items with
  | nil => intro t c; simp [bulk_insert_results]
  | cons item rest ih =>
      intro t c
      rw [List.foldl_cons]
      show rest.foldl _ ((insertOrIgnore t (toRow searchId item)).1,
        c + (insertOrIgnore t (toRow searchId item)).2) = _
      rw [ih]
      unfold bulk_insert_results
      rw [List.foldl_cons]
      show _ = ((rest.foldl _ ((insertOrIgnore t (toRow searchId item)).1,
        0 + (insertOrIgnore t (toRow searchId item)).2)).1, _)
      rw [ih, ih]
      simp [Nat.add_assoc]

theorem insertOrIgnore_length (t : ResultsTable) (r : ResultRow) :
    (insertOrIgnore t r).1.length = t.length + (insertOrIgnore t r).2 := by
  unfold insertOrIgnore
  by_cases h : keyMem t r.search_id r.title r.url <;> simp [h]

theorem bulk_insert_length (searchId : Nat) (items : List ResultItem) :
    ∀ t : ResultsTable,
      (bulk_insert_results t searchId items).1.length =
        t.length + (bulk_insert_results t searchId items).2 := by
  induction items with
  | nil => intro t; rfl
  | cons item rest ih =>
      intro t
      unfold bulk_insert_results
      rw [List.foldl_cons]
      show (rest.foldl _ ((insertOrIgnore t (toRow searchId item)).1,
        0 + (insertOrIgnore t (toRow searchId item)).2)).1.length = _
      rw [bulk_insert_shift, ih, insertOrIgnore_length]
      show _ = List.length t + (0 + (insertOrIgnore t (toRow searchId item)).2 +
        (bulk_insert_results (insertOrIgnore t (toRow searchId item)).1 searchId rest).2)
      omega

theorem insertOrIgnore_le_one (t : ResultsTable) (r : ResultRow) :
    (insertOrIgnore t r).2 ≤ 1 := by
  unfold insertOrIgnore
  by_cases h : keyMem t r.search_id r.title r.url <;> simp [h]

theorem bulk_insert_count_le (searchId : Nat) (items : List ResultItem) :
    ∀ t : ResultsTable, (bulk_insert_results t searchId items).2 ≤ items.length := by
  induction items with
  | nil => intro t; exact Nat.le_refl 0
  | cons item rest ih =>
      intro t
      unfold bulk_insert_results
      rw [List.foldl_cons]
      show (rest.foldl _ ((insertOrIgnore t (toRow searchId item)).1,
        0 + (insertOrIgnore t (toRow searchId item)).2)).2 ≤ rest.length + 1
      rw [bulk_insert_shift]
      show 0 + (insertOrIgnore t (toRow searchId item)).2 +
        (bulk_insert_results (insertOrIgnore t (toRow searchId item)).1 searchId rest).2 ≤ _
      have h1 := insertOrIgnore_le_one t (toRow searchId item)
      have h2 := ih (insertOrIgnore t (toRow searchId item)).1
      omega

/-- Claim C2: `record_results` returns the number of rows actually
inserted (0 for empty input, at most the item count, always the growth
of the table); inserting a fresh item adds exactly one row and
re-inserting the same item is ignored — the second call returns 0 and
leaves the table unchanged, with exactly one stored row for the
(search_id, title, url) triple. -/
theorem claim_C2_record_results_idempotent (t : ResultsTable) (searchId : Nat)
    (item : ResultItem) (items : List ResultItem)
    (hfresh : keyMem t searchId (pyGetOr item.title) (pyGetOr item.url) = false) :
    bulk_insert_results t searchId [] = (t, 0) ∧
    (bulk_insert_results t searchId items).1.length =
      t.length + (bulk_insert_results t searchId items).2 ∧
    (bulk_insert_results t searchId items).2 ≤ items.length ∧
    (bulk_insert_results t searchId [item]).2 = 1 ∧
    (bulk_insert_results (bulk_insert_results t searchId [item]).1 searchId [item]).2 = 0 ∧
    (bulk_insert_results (bulk_insert_results t searchId [item]).1 searchId [item]).1 =
      (bulk_insert_results t searchId [item]).1 ∧
    keyCount (bulk_insert_results t searchId [item]).1 searchId
      (pyGetOr item.title) (pyGetOr item.url) =
      keyCount t searchId (pyGetOr item.title) (pyGetOr item.url) + 1 := by
  have hrowkey : rowMatches searchId (pyGetOr item.title) (pyGetOr item.url)
      (toRow searchId item) = true := by
    simp [rowMatches, toRow]
  have hsingle : bulk_insert_results t searchId [item] =
      (t ++ [toRow searchId item], 1) := by
    show ((insertOrIgnore t (toRow searchId item)).1,
      0 + (insertOrIgnore t (toRow searchId item)).2) = _
    unfold insertOrIgnore
    rw [if_neg]
    · simp
    · show ¬ keyMem t (toRow searchId item).search_id (toRow searchId item).title
        (toRow searchId item).url = true
      simp only [toRow]
      simp [hfresh]
  have hmem2 : keyMem (t ++ [toRow searchId item]) searchId
      (pyGetOr item.title) (pyGetOr item.url) = true := by
    unfold keyMem
    rw [List.any_append]
    simp [hrowkey]
  have hsingle2 : bulk_insert_results (t ++ [toRow searchId item]) searchId [item] =
      (t ++ [toRow searchId item], 0) := by
    show ((insertOrIgnore (t ++ [toRow searchId item]) (toRow searchId item)).1,
      0 + (insertOrIgnore (t ++ [toRow searchId item]) (toRow searchId item)).2) = _
    unfold insertOrIgnore
    rw [if_pos]
    · simp
    · show keyMem (t ++ [toRow searchId item]) (toRow searchId item).search_id
        (toRow searchId item).title (toRow searchId item).url = true
      simp only [toRow]
      simpa [toRow] using hmem2
  refine ⟨rfl, bulk_insert_length searchId items t, bulk_insert_count_le searchId items t,
    ?_, ?_, ?_, ?_⟩
  · rw [hsingle]
  · rw [hsingle, hsingle2]
  · rw [hsingle, hsingle2]
  · rw [hsingle]
    unfold keyCount
    rw [List.filter_append]
    simp [hrowkey]

def exC2_item : ResultItem :=
  { title := some "Ti", url := some "U", published := none, license := none,
    snippet := some "sn" }

/-- Claim C2 witness: on an empty table, inserting `exC2_item` returns
1, re-inserting it returns 0, and exactly one row with the key
`(1, "Ti", "U")` is stored. -/
theorem claim_C2_witness :
    (bulk_insert_results [] 1 [exC2_item]).2 = 1 ∧
    (bulk_insert_results (bulk_insert_results [] 1 [exC2_item]).1 1 [exC2_item]).2 = 0 ∧
    (bulk_insert_results (bulk_insert_results [] 1 [exC2_item]).1 1 [exC2_item]).1 =
      (bulk_insert_results [] 1 [exC2_item]).1 ∧
    keyCount (bulk_insert_results [] 1 [exC2_item]).1 1 "Ti" "U" = 1 := by
  have h := claim_C2_record_results_idempotent [] 1 exC2_item [] (by decide)
  exact ⟨h.2.2.2.1, h.2.2.2.2.1, h.2.2.2.2.2.1, h.2.2.2.2.2.2⟩

/-! ## `_http_get` (tools_agent_v2.py) and `http_get` (http_client.py)

Both retry loops are embedded over an abstract response stream
`statuses : Nat → Nat` giving the HTTP status of the i-th request.
Sleeps are recorded as naturals: for `_http_get` in units of
`NCBI_MIN_DELAY_S` (the code sleeps `NCBI_MIN_DELAY_S * 2 ** (retry - 1)`),
for `http_get` in tenths of a second (the code sleeps
`1.5 * (attempt + 1)` seconds on a 429 and `1.0 * (attempt + 1)` on a
raised error; both float products are exact, so 15·(attempt+1) and
10·(attempt+1) tenths).  Recursion is on the explicit `remaining`
counter, the number of retries still allowed (`maxRetries - retry`
resp. `retries - attempt`), which the bounded loops decrease.  A raised
exception is `Except.error` carrying the offending status. -/

deriving instance DecidableEq for Except

/-- Default of `NCBI_MAX_RETRIES = int(os.getenv("NCBI_MAX_RETRIES", "3"))`. -/
def NCBI_MAX_RETRIES : Nat := 3

/-- `resp.status_code == 429 or resp.status_code >= 500`. -/
def retryableStatus (st : Nat) : Bool := decide (st = 429 ∨ 500 ≤ st)

/-- The `while True` loop of `_http_get`: on a retryable status sleep
`2 ** retry` units and retry while the retry budget allows, otherwise
fall through to `raise_for_status()`; on success sleep one unit and
return. -/
def ncbiLoop (statuses : Nat → Nat) : Nat → Nat → Nat → Except Nat Nat × List Nat
  | remaining, req, retry =>
      let st := statuses req
      if retryableStatus st then
        match remaining with
        | 0 => (Except.error st, [2 ^ retry])
        | r + 1 =>
            let res := ncbiLoop statuses r (req + 1) (retry + 1)
            (res.1, 2 ^ retry :: res.2)
      else if 400 ≤ st then (Except.error st, [])
      else (Except.ok st, [1])

/-- `_http_get` with the default retry ceiling. -/
def ncbi_http_get (statuses : Nat → Nat) : Except Nat Nat × List Nat :=
  ncbiLoop statuses NCBI_MAX_RETRIES 0 0

/-- The `for attempt in range(retries + 1)` loop of `http_get`:
`remaining = retries - attempt`.  A 429 with budget left sleeps
`15 * (attempt + 1)` tenths of a second; any other `raise_for_status`
failure with budget left sleeps `10 * (attempt + 1)`; once the budget
is exhausted the last failure is re-raised. -/
def clientLoop (statuses : Nat → Nat) : Nat → Nat → Except Nat Nat × List Nat
  | remaining, attempt =>
      let st := statuses attempt
      match remaining with
      | 0 => if 400 ≤ st then (Except.error st, []) else (Except.ok st, [])
      | r + 1 =>
          if st = 429 then
            let res := clientLoop statuses r (attempt + 1)
            (res.1, 15 * (attempt + 1) :: res.2)
          else if 400 ≤ st then
            let res := clientLoop statuses r (attempt + 1)
            (res.1, 10 * (attempt + 1) :: res.2)
          else (Except.ok st, [])

/-- `http_get` with its `retries` parameter (default 2 in the source). -/
def http_get (statuses : Nat → Nat) (retries : Nat) : Except Nat Nat × List Nat :=
  clientLoop statuses retries 0

theorem ncbiLoop_exhaust (statuses : Nat → Nat) :
    ∀ (remaining req retry : Nat),
      (∀ i, i ≤ remaining → retryableStatus (statuses (req + i)) = true) →
      ncbiLoop statuses remaining req retry =
        (Except.error (statuses (req + remaining)),
         (List.range (remaining + 1)).map (fun (i : Nat) => 2 ^ (retry + i))) := by
  intro remaining
  induction remaining with
  | zero =>
      intro req retry h
      have h0 := h 0 (Nat.le_refl 0)
      rw [Nat.add_zero] at h0
      rw [ncbiLoop]
      simp [h0, List.range_succ]
  | succ r ih =>
      intro req retry h
      have h0 := h 0 (Nat.zero_le _)
      rw [Nat.add_zero] at h0
      have hrest : ∀ i, i ≤ r → retryableStatus (statuses (req + 1 + i)) = true := by
        intro i hi
        have h' := h (i + 1) (Nat.succ_le_succ hi)
        have he : req + (i + 1) = req + 1 + i := by omega
        rwa [he] at h'
      rw [ncbiLoop]
      simp only [h0, if_true]
      show ((ncbiLoop statuses r (req + 1) (retry + 1)).1,
        2 ^ retry :: (ncbiLoop statuses r (req + 1) (retry + 1)).2) = _
      rw [ih (req + 1) (retry + 1) hrest]
      refine Prod.ext ?_ ?_
      · exact congrArg (fun x => Except.error (statuses x)) (by omega)
      · show 2 ^ retry :: (List.range (r + 1)).map (fun (i : Nat) => 2 ^ (retry + 1 + i)) =
          (List.range (r + 1 + 1)).map (fun (i : Nat) => 2 ^ (retry + i))
        conv_rhs => rw [List.range_succ_eq_map]
        rw [List.map_cons, List.map_map]
        refine congrArg₂ _ ?_ ?_
        · rw [Nat.add_zero]
        · refine List.map_congr_left ?_
          intro i _
          show 2 ^ (retry + 1 + i) = 2 ^ (retry + (i + 1))
          congr 1
          omega

theorem clientLoop_busy (statuses : Nat → Nat) :
    ∀ (remaining attempt : Nat),
      (∀ i, i ≤ remaining → statuses (attempt + i) = 429) →
      clientLoop statuses remaining attempt =
        (Except.error 429,
         (List.range remaining).map (fun (i : Nat) => 15 * (attempt + i + 1))) := by
  intro remaining
  induction remaining with
  | zero =>
      intro attempt h
      have h0 := h 0 (Nat.le_refl 0)
      rw [Nat.add_zero] at h0
      rw [clientLoop]
      simp [h0]
  | succ r ih =>
      intro attempt h
      have h0 := h 0 (Nat.zero_le _)
      rw [Nat.add_zero] at h0
      have hrest : ∀ i, i ≤ r → statuses (attempt + 1 + i) = 429 := by
        intro i hi
        have h' := h (i + 1) (Nat.succ_le_succ hi)
        have he : attempt + (i + 1) = attempt + 1 + i := by omega
        rwa [he] at h'
      rw [clientLoop]
      simp only [h0, if_true]
      show ((clientLoop statuses r (attempt + 1)).1,
        15 * (attempt + 1) :: (clientLoop statuses r (attempt + 1)).2) = _
      rw [ih (attempt + 1) hrest]
      refine Prod.ext rfl ?_
      show 15 * (attempt + 1) ::
          (List.range r).map (fun (i : Nat) => 15 * (attempt + 1 + i + 1)) =
        (List.range (r + 1)).map (fun (i : Nat) => 15 * (attempt + i + 1))
      conv_rhs => rw [List.range_succ_eq_map]
      rw [List.map_cons, List.map_map]
      refine congrArg₂ _ ?_ ?_
      · show 15 * (attempt + 1) = 15 * (attempt + 0 + 1)
        omega
      · refine List.map_congr_left ?_
        intro i _
        show 15 * (attempt + 1 + i + 1) = 15 * (attempt + (i + 1) + 1)
        omega

/-- Executable check for a geometric (doubling) backoff schedule, the
shape `_http_get` actually produces. -/
def doublingB : List Nat → Bool
  | [] => true
  | [_] => true
  | a :: b :: rest => decide (b = 2 * a) && doublingB (b :: rest)

def DoublingDelays (l : List Nat) : Prop := doublingB l = true

instance DoublingDelays.decidable (l : List Nat) : Decidable (DoublingDelays l) := by
  unfold DoublingDelays
  infer_instance

def exC7_busy : Nat → Nat := fun _ => 429

/-- Claim C7 counterexample: with every response a 429 and
`retries = 3`, `http_get` raises after its retries but its backoff
delays are 1.5 s, 3 s, 4.5 s (15, 30, 45 tenths) — an arithmetic
schedule, not an exponentially increasing one (45 ≠ 2·30). -/
theorem claim_C7_counterexample :
    http_get exC7_busy 3 = (Except.error 429, [15, 30, 45]) ∧
    ¬ DoublingDelays [15, 30, 45] := by
  refine ⟨by decide, by decide⟩

/-- Claim C7 amended: `_http_get` retries 429/5xx responses with
exponentially doubling delays (`2 ** k` units of the minimum delay,
`k = 0..NCBI_MAX_RETRIES`) and raises the final status once the retry
ceiling is exhausted; `http_get` also retries up to its `retries`
budget and re-raises the last failure after exhaustion, but its 429
backoff grows linearly (`1.5 * (attempt + 1)` seconds), not
exponentially. -/
theorem claim_C7_retry_exhaustion (statuses statuses' : Nat → Nat) (retries : Nat)
    (hbad : ∀ i, i ≤ NCBI_MAX_RETRIES → retryableStatus (statuses i) = true)
    (hbusy : ∀ i, i ≤ retries → statuses' i = 429) :
    ncbi_http_get statuses =
      (Except.error (statuses NCBI_MAX_RETRIES),
       (List.range (NCBI_MAX_RETRIES + 1)).map (fun (i : Nat) => 2 ^ i)) ∧
    DoublingDelays ((List.range (NCBI_MAX_RETRIES + 1)).map (fun (i : Nat) => 2 ^ i)) ∧
    http_get statuses' retries =
      (Except.error 429,
       (List.range retries).map (fun (i : Nat) => 15 * (i + 1))) := by
  refine ⟨?_, by decide, ?_⟩
  · have h := ncbiLoop_exhaust statuses NCBI_MAX_RETRIES 0 0 (fun i hi => by
      have hb := hbad i hi
      rwa [Nat.zero_add])
    rw [ncbi_http_get, h]
    simp
  · have h := clientLoop_busy statuses' retries 0 (fun i hi => by
      have hb := hbusy i hi
      rwa [Nat.zero_add])
    rw [http_get, h]
    simp

/-- Claim C7 witness: constant 503s exhaust `_http_get` after 4
requests with delays 1, 2, 4, 8 units, and constant 429s exhaust
`http_get` with `retries = 2` after delays of 1.5 s and 3 s; both
raise. -/
theorem claim_C7_witness :
    ncbi_http_get (fun _ => 503) = (Except.error 503, [1, 2, 4, 8]) ∧
    http_get (fun _ => 429) 2 = (Except.error 429, [15, 30]) := by
  have h := claim_C7_retry_exhaustion (fun _ => 503) (fun _ => 429) 2
    (fun i _ => by show retryableStatus 503 = true; decide)
    (fun i _ => rfl)
  exact ⟨h.1.trans (by decide), h.2.2.trans (by decide)⟩

/-! ## The batched efetch loop of `search_pubmed` (claim C8)

`search_pubmed` collects `results` across sub-batches of 4 PubMed ids;
each sub-batch is fetched with `_http_get`, whose exception (after its
internal retries) propagates out of the whole tool call — the local
`results` list is abandoned, not returned.  The fetcher is abstracted
as `fetch : List String → Except Nat (List SearchResult)`. -/

structure SearchResult where
  title : String
  snippet : String
  url : String
  deriving DecidableEq, Repr

/-- `ids[i:i+4]` batching, by fuel (the list length bounds the number
of batches). -/
def chunk4Fuel : Nat → List String → List (List String)
  | 0, _ => []
  | _, [] => []
  | fuel + 1, l => l.take 4 :: chunk4Fuel fuel (l.drop 4)

def chunk4 (l : List String) : List (List String) := chunk4Fuel l.length l

/-- The `for i in range(0, len(ids), 4)` loop body: fetch a batch,
append its articles to `results`; a raised error aborts the whole
call. -/
def efetchLoop (fetch : List String → Except Nat (List SearchResult)) :
    List (List String) → List SearchResult → Except Nat (List SearchResult)
  | [], acc => Except.ok acc
  | b :: bs, acc =>
      match fetch b with
      | Except.error e => Except.error e
      | Except.ok hs => efetchLoop fetch bs (acc ++ hs)

/-- `search_pubmed` from the id list on: empty id list short-circuits
to `[]`; otherwise the batched fetch runs and, on success only, the
first `k` results are returned. -/
def search_pubmed_fetch (fetch : List String → Except Nat (List SearchResult))
    (ids : List String) (k : Nat) : Except Nat (List SearchResult) :=
  if ids = [] then Except.ok []
  else (efetchLoop fetch (chunk4 ids) []).map (fun l => l.take k)

/-- The articles a sub-batch contributed (empty for a failed batch). -/
def fetchedOf (fetch : List String → Except Nat (List SearchResult))
    (b : List String) : List SearchResult :=
  match fetch b with
  | Except.error _ => []
  | Except.ok hs => hs

def exC8_r1 : SearchResult := { title := "T1", snippet := "s", url := "u1" }

def exC8_fetch : List String → Except Nat (List SearchResult) :=
  fun b => if b = ["a", "b", "c", "d"] then Except.ok [exC8_r1] else Except.error 500

/-- Claim C8 counterexample: five ids split into sub-batches
`["a","b","c","d"]` and `["e"]`; the first sub-batch fetches `exC8_r1`,
the second raises 500 — the whole `search_pubmed` call raises and the
already-fetched `exC8_r1` is not returned to the caller in any form. -/
theorem claim_C8_counterexample :
    search_pubmed_fetch exC8_fetch ["a", "b", "c", "d", "e"] 5 = Except.error 500 ∧
    ¬ ∃ l, search_pubmed_fetch exC8_fetch ["a", "b", "c", "d", "e"] 5 = Except.ok l ∧
      exC8_r1 ∈ l := by
  refine ⟨by decide, ?_⟩
  rintro ⟨l, hl, _⟩
  rw [show search_pubmed_fetch exC8_fetch ["a", "b", "c", "d", "e"] 5 =
    Except.error 500 from by decide] at hl
  cases hl

/-- Claim C8 amended: within one batched retrieval call, the failure of
any sub-batch makes the whole call fail with the first raised error and
the items already fetched from earlier sub-batches are discarded;
results are delivered only when every sub-batch succeeds, in which case
all fetched items are returned in batch order. -/
theorem claim_C8_batch_failure (fetch : List String → Except Nat (List SearchResult))
    (bs : List (List String)) (acc : List SearchResult) :
    ((∃ b ∈ bs, ∃ e, fetch b = Except.error e) →
      ∃ e, efetchLoop fetch bs acc = Except.error e) ∧
    ((∀ b ∈ bs, ∃ hs, fetch b = Except.ok hs) →
      efetchLoop fetch bs acc = Except.ok (acc ++ (bs.map (fetchedOf fetch)).flatten)) := by
  induction bs generalizing acc with
  | nil =>
      refine ⟨?_, ?_⟩
      · rintro ⟨b, hb, _⟩
        exact absurd hb (List.not_mem_nil b)
      · intro _
        simp [efetchLoop]
  | cons b bs ih =>
      refine ⟨?_, ?_⟩
      · rintro ⟨b', hb', e, he⟩
        rcases List.mem_cons.mp hb' with h | h
        · subst h
          refine ⟨e, ?_⟩
          show (match fetch b' with
            | Except.error e => Except.error e
            | Except.ok hs => efetchLoop fetch bs (acc ++ hs)) = _
          rw [he]
        · cases hf : fetch b with
          | error e' =>
              refine ⟨e', ?_⟩
              show (match fetch b with
                | Except.error e => Except.error e
                | Except.ok hs => efetchLoop fetch bs (acc ++ hs)) = _
              rw [hf]
          | ok hs =>
              have := (ih (acc ++ hs)).1 ⟨b', h, e, he⟩
              obtain ⟨e'', he''⟩ := this
              refine ⟨e'', ?_⟩
              show (match fetch b with
                | Except.error e => Except.error e
                | Except.ok hs => efetchLoop fetch bs (acc ++ hs)) = _
              rw [hf]
              exact he''
      · intro hok
        obtain ⟨hs, hf⟩ := hok b (List.mem_cons_self b bs)
        have hrest := (ih (acc ++ hs)).2 (fun b' hb' => hok b' (List.mem_cons_of_mem b hb'))
        show (match fetch b with
          | Except.error e => Except.error e
          | Except.ok hs => efetchLoop fetch bs (acc ++ hs)) = _
        rw [hf]
        show efetchLoop fetch bs (acc ++ hs) = _
        rw [hrest]
        rw [List.map_cons, List.flatten_cons]
        rw [show fetchedOf fetch b = hs from by unfold fetchedOf; rw [hf]]
        rw [List.append_assoc]

def exC8_fetchOk : List String → Except Nat (List SearchResult) :=
  fun _ => Except.ok [exC8_r1]

/-- Claim C8 witness: a failing second sub-batch makes the loop raise,
and with every sub-batch succeeding the loop returns all items in
order. -/
theorem claim_C8_witness :
    (∃ e, efetchLoop exC8_fetch [["a", "b", "c", "d"], ["e"]] [] = Except.error e) ∧
    efetchLoop exC8_fetchOk [["a"], ["b"]] [] =
      Except.ok (([] : List SearchResult) ++
        ((([["a"], ["b"]] : List (List String)).map (fetchedOf exC8_fetchOk)).flatten)) := by
  refine ⟨?_, ?_⟩
  · exact (claim_C8_batch_failure exC8_fetch [["a", "b", "c", "d"], ["e"]] []).1
      ⟨["e"], by decide, 500, by decide⟩
  · exact (claim_C8_batch_failure exC8_fetchOk [["a"], ["b"]] []).2
      (fun b _ => ⟨[exC8_r1], rfl⟩)

end ClueAgent
